import Mathlib

/-!
# Verification of the `cs` interactive directory chooser

This file gives a shallow embedding of the repository: the event/terminal
glue in `src/main.rs` (`main`, `run_app`, `ui_list`) is translated into
trace-producing Lean functions, and the `cs` library crate (the `App`
navigation state, the fuzzy matcher and the cursor clamp), whose source is
not part of the repository snapshot, is modelled from the specification.
Theorems then settle the specification's claims about the program.
-/

namespace CS

/-- Lower-case a character, as the case-insensitive comparison does. -/
def lowc (c : Char) : Char := c.toLower

/-- Modelled from the spec: the FuzzyMatcher of §4.1 (the `cs` library
source is not in the snapshot).  Greedy left-to-right subsequence scan
carrying the absolute index of the head of the remaining candidate: for
each query character, advance over candidate characters until a
case-insensitive match is found; record the index; if the candidate is
exhausted before the query is consumed, fail. -/
def fuzzyFrom : List Char → List Char → Nat → Option (List Nat)
  | [], _, _ => some []
  | _ :: _, [], _ => none
  | q :: qs, c :: cs, i =>
    if lowc q = lowc c then
      (fuzzyFrom qs cs (i + 1)).map (fun ps => i :: ps)
    else
      fuzzyFrom (q :: qs) cs (i + 1)

/-- Modelled from the spec: `match(query, candidate)` of §4.1, returning
the matched character positions or `none` for "no match". -/
def fuzzyMatch (q c : List Char) : Option (List Nat) := fuzzyFrom q c 0

/-- Modelled from the spec: the SelectionCursor clamp of §4.4.
`none` is "no selection". -/
def clamp (old : Nat) (newLength : Nat) : Option Nat :=
  if newLength = 0 then none
  else if old ≥ newLength then some (newLength - 1)
  else some old

/-- Modelled from the spec: an Entry of §3, `{ name, is_dir }`. -/
structure Entry where
  name : List Char
  is_dir : Bool
deriving DecidableEq, Repr

/-- Modelled from the spec: a VisibleEntry of §3,
`{ name, highlights, source_index }`. -/
structure VisibleEntry where
  name : List Char
  highlights : List Nat
  source_index : Nat
deriving DecidableEq, Repr

/-- A filesystem snapshot: maps a path (list of components from the root)
to its children, or `none` when the directory is unreadable (IoError). -/
def Fs : Type := List String → Option (List Entry)

/-- Modelled from the spec: EntryListing load (§4.2) combined with the
failure semantics of §4.5/§7 — a reload failure degrades to an empty
listing for that path. -/
def load (fs : Fs) (p : List String) : List Entry := (fs p).getD []

/-- Modelled from the spec: the FilterEngine of §4.3 — for each entry in
listing order, keep it iff the matcher succeeds against the query,
recording the highlights and the entry's index in the listing. -/
def visibleOf (listing : List Entry) (q : List Char) : List VisibleEntry :=
  (listing.enum).filterMap (fun ei =>
    (fuzzyMatch q ei.2.name).map (fun hl =>
      { name := ei.2.name, highlights := hl, source_index := ei.1 }))

/-- The user intents of the core interface (`cs::Event` in the source). -/
inductive CsEvent
  | left
  | right
  | up
  | down
  | search
deriving DecidableEq, Repr

/-- Modelled from the spec: NavigationState (§3), the `cs::App`.
`cursor = none` is "no selection". -/
structure App where
  currentPath : List String
  listing : List Entry
  search : List Char
  cursor : Option Nat
  searchMode : Bool
deriving DecidableEq

/-- The current visible (filtered) sequence, `get_files()`. -/
def App.visible (a : App) : List VisibleEntry := visibleOf a.listing a.search

/-- `get_current_dir()`. -/
def App.getCurrentDir (a : App) : List String := a.currentPath

/-- The selected VisibleEntry, when the cursor points into the visible
sequence. -/
def App.selected (a : App) : Option VisibleEntry :=
  a.cursor.bind (fun i => a.visible.get? i)

/-- Cursor reset after a listing (re)load with an empty query: first
visible entry, or "no selection" when the listing is empty (§4.5). -/
def resetCursor (listing : List Entry) : Option Nat :=
  if (visibleOf listing []).length = 0 then none else some 0

/-- Modelled from the spec: the directory-enter/leave transition body of
§4.5 — set the path, reload the listing, reset the query to empty and the
cursor to the first visible entry (or "no selection"). -/
def gotoDir (fs : Fs) (a : App) (p : List String) : App :=
  let l := load fs p
  { currentPath := p, listing := l, search := [],
    cursor := resetCursor l, searchMode := a.searchMode }

/-- Modelled from the spec: `App::new()` (§6) — initialized at the
process's working directory, empty query, cursor at the first entry. -/
def App.new (fs : Fs) (cwd : List String) : App :=
  gotoDir fs { currentPath := cwd, listing := [], search := [],
               cursor := none, searchMode := false } cwd

/-- Modelled from the spec: `update(intent)`, the intent table of §4.5.
`Right` on no selection or a non-directory is a no-op; `Left` at the root
is a no-op; `Search` re-filters from the unchanged listing and re-clamps
the cursor (a prior "no selection" re-clamps from 0). -/
def update (fs : Fs) (a : App) : CsEvent → App
  | .down =>
    { a with cursor := a.cursor.map (fun i => min (i + 1) (a.visible.length - 1)) }
  | .up =>
    { a with cursor := a.cursor.map (fun i => i - 1) }
  | .right =>
    match a.selected with
    | none => a
    | some ve =>
      match a.listing.get? ve.source_index with
      | none => a
      | some e =>
        if e.is_dir then gotoDir fs a (a.currentPath ++ [e.name.asString]) else a
  | .left =>
    match a.currentPath with
    | [] => a
    | _ :: _ => gotoDir fs a a.currentPath.dropLast
  | .search =>
    { a with cursor := clamp (a.cursor.getD 0) a.visible.length }

/-! ## The event loop and process glue of `src/main.rs` -/

/-- The key codes `run_app` dispatches on; `other` stands for the `_`
branch. -/
inductive KeyCode
  | esc
  | left
  | down
  | up
  | right
  | enter
  | char (c : Char)
  | backspace
  | other
deriving DecidableEq, Repr

/-- One iteration's input to `run_app`'s loop: a key event, or a failure
of `terminal.draw` / `event::poll` / `event::read` (the `?` operators of
lines 77–83), which makes `run_app` return an `Err`. -/
inductive LoopIn
  | fail
  | key (k : KeyCode)
deriving DecidableEq, Repr

/-- Observable effects of the program, in order of occurrence. -/
inductive Eff
  | enableRaw
  | enterAlt
  | mkTerm
  | draw
  | pollKey (k : KeyCode)
  | pushQ (c : Char)
  | popQ
  | updateApp (e : CsEvent)
  | setCwd (p : List String)
  | disableRaw
  | leaveAlt
  | showCursor
  | printErr
  | execShell (cmd : String)
  | panicOS
deriving DecidableEq, Repr

/-- How `run_app` ended: `errRes` is `Err(..)` from a failed terminal
operation, `okRes` is `Ok(())` (from `Esc`'s `return` or `Enter`'s
`break`), `pending` means the input stream ran out with the loop still
running. -/
inductive RunRes
  | errRes
  | okRes
  | pending
deriving DecidableEq, Repr

/-- The loop of `run_app` (src/main.rs lines 76–116): draw, poll, then
dispatch on the key code.  `Esc` returns `Ok`; the arrow keys forward an
intent and continue; `Enter` forwards `Right`, changes the process
working directory to `get_current_dir()` and breaks; a character key
pushes it onto `app.search` then sends `Search`; `Backspace` pops then
sends `Search`; anything else is ignored.  Returns the effect trace, the
final app state, and how the loop ended. -/
def runApp (fs : Fs) : List LoopIn → App → List Eff × App × RunRes
  | [], a => ([], a, .pending)
  | .fail :: _, a => ([.draw], a, .errRes)
  | .key k :: rest, a =>
    match k with
    | .esc => ([.draw, .pollKey .esc], a, .okRes)
    | .left =>
      let r := runApp fs rest (update fs a .left)
      (.draw :: .pollKey .left :: .updateApp .left :: r.1, r.2)
    | .down =>
      let r := runApp fs rest (update fs a .down)
      (.draw :: .pollKey .down :: .updateApp .down :: r.1, r.2)
    | .up =>
      let r := runApp fs rest (update fs a .up)
      (.draw :: .pollKey .up :: .updateApp .up :: r.1, r.2)
    | .right =>
      let r := runApp fs rest (update fs a .right)
      (.draw :: .pollKey .right :: .updateApp .right :: r.1, r.2)
    | .enter =>
      let a' := update fs a .right
      ([.draw, .pollKey .enter, .updateApp .right, .setCwd a'.getCurrentDir],
       a', .okRes)
    | .char c =>
      let a' := update fs { a with search := a.search ++ [c] } .search
      let r := runApp fs rest a'
      (.draw :: .pollKey (.char c) :: .pushQ c :: .updateApp .search :: r.1, r.2)
    | .backspace =>
      let a' := update fs { a with search := a.search.dropLast } .search
      let r := runApp fs rest a'
      (.draw :: .pollKey .backspace :: .popQ :: .updateApp .search :: r.1, r.2)
    | .other =>
      let r := runApp fs rest a
      (.draw :: .pollKey .other :: r.1, r.2)

/-- The operating systems `main` distinguishes via `cfg!`. -/
inductive OS
  | linux
  | macos
  | otherOS
deriving DecidableEq, Repr

/-- The default shell per OS (src/main.rs lines 58–64); `none` means the
`panic!("Unsupported OS")` branch. -/
def defaultShell : OS → Option String
  | .linux => some "bash"
  | .macos => some "zsh"
  | .otherOS => none

/-- The environment `main` runs in: which fallible terminal operations
fail, the filesystem, the starting working directory, the key/event
inputs, the OS, and the value of `CS_SHELL` (`none` when unset). -/
structure Env where
  enableRawFails : Bool
  enterAltFails : Bool
  mkTermFails : Bool
  disableRaw1Fails : Bool
  leaveAltFails : Bool
  disableRaw2Fails : Bool
  showCursorFails : Bool
  fs : Fs
  cwd : List String
  inputs : List LoopIn
  os : OS
  csShell : Option String

/-- The tail of `main` after `run_app` returns (src/main.rs lines 45–67):
the terminal-restore sequence, each step propagating failure with `?`;
then, on an `Err` from `run_app`, print it and return without a shell;
otherwise pick the shell (`CS_SHELL`, else the per-OS default, panicking
on an unsupported OS) and `exec` it.  When `run_app` never returned
(`pending`) nothing further happens. -/
def mainAfter (env : Env) (res : RunRes) : List Eff :=
  match res with
  | .pending => []
  | _ =>
    if env.disableRaw1Fails then [] else
    .disableRaw ::
    (if env.leaveAltFails then [] else
     .leaveAlt ::
     (if env.disableRaw2Fails then [] else
      .disableRaw ::
      (if env.showCursorFails then [] else
       .showCursor ::
       (match res with
        | .errRes => [.printErr]
        | _ =>
          match defaultShell env.os with
          | none => [.panicOS]
          | some d => [.execShell (env.csShell.getD d)]))))

/-- `main` (src/main.rs lines 31–68) as the trace of its effects:
`enable_raw_mode()?`, `execute!(EnterAlternateScreen, ..)?`,
`Terminal::new(..)?` — each returning early on failure — then the
`run_app` loop over `App::new()`, then `mainAfter`. -/
def mainModel (env : Env) : List Eff :=
  if env.enableRawFails then [] else
  .enableRaw ::
  (if env.enterAltFails then [] else
   .enterAlt ::
   (if env.mkTermFails then [] else
    .mkTerm ::
    (let r := runApp env.fs env.inputs (App.new env.fs env.cwd)
     r.1 ++ mainAfter env r.2.2)))

/-! ## The span construction of `ui_list` (src/main.rs lines 155–188) -/

/-- A rendered span: styled (highlighted) or raw, with its text. -/
structure SpanM where
  styled : Bool
  content : List Char
deriving DecidableEq, Repr

/-- Rust slice `chars[a..b]`: `none` models the panic when `a > b` or
`b > chars.len()`. -/
def sliceOpt (chars : List Char) (a b : Nat) : Option (List Char) :=
  if a ≤ b ∧ b ≤ chars.length then some ((chars.drop a).take (b - a)) else none

/-- The `for &i in node.highlights` loop of `ui_list` with its
`last_index` accumulator: an optional raw span `chars[last_index..i]`
when `i > last_index`, the styled span `chars[i..i + 1]`, then the rest;
after the loop, a trailing raw span `chars[last_index..]` when
`last_index < chars.len()`. -/
def spansLoop (chars : List Char) : List Nat → Nat → Option (List SpanM)
  | [], lastIndex =>
    if lastIndex < chars.length then
      (sliceOpt chars lastIndex chars.length).map (fun s => [⟨false, s⟩])
    else some []
  | i :: rest, lastIndex => do
    let raw ← if i > lastIndex then
        (sliceOpt chars lastIndex i).map (fun s => [SpanM.mk false s])
      else some []
    let st ← sliceOpt chars i (i + 1)
    let tl ← spansLoop chars rest (i + 1)
    some (raw ++ ⟨true, st⟩ :: tl)

/-- The span list `ui_list` builds for one entry: a single raw span of the
whole name when there are no highlights, else the loop above from
`last_index = 0`. -/
def buildSpans (name : List Char) (hls : List Nat) : Option (List SpanM) :=
  if hls.isEmpty then some [⟨false, name⟩] else spansLoop name hls 0

/-! ## Trace observables -/

/-- Whether raw mode is active after a trace (starting inactive). -/
def finalRaw (tr : List Eff) : Bool :=
  tr.foldl (fun s e => match e with
    | .enableRaw => true
    | .disableRaw => false
    | _ => s) false

/-- Whether the alternate screen is active after a trace (starting
inactive). -/
def finalAlt (tr : List Eff) : Bool :=
  tr.foldl (fun s e => match e with
    | .enterAlt => true
    | .leaveAlt => false
    | _ => s) false

/-- Effects the `run_app` loop body can emit (draw, poll, query edits,
intent forwarding, the working-directory change). -/
def isLoopEff : Eff → Bool
  | .draw => true
  | .pollKey _ => true
  | .pushQ _ => true
  | .popQ => true
  | .updateApp _ => true
  | .setCwd _ => true
  | _ => false

/-- An input that neither fails nor terminates the loop. -/
def Quiet : LoopIn → Prop := fun i =>
  i ≠ .fail ∧ i ≠ .key .esc ∧ i ≠ .key .enter

/-- The app-state evolution of one key press of the loop (the state part
of `runApp`'s dispatch). -/
def stepKey (fs : Fs) (a : App) : KeyCode → App
  | .esc => a
  | .left => update fs a .left
  | .down => update fs a .down
  | .up => update fs a .up
  | .right => update fs a .right
  | .enter => update fs a .right
  | .char c => update fs { a with search := a.search ++ [c] } .search
  | .backspace => update fs { a with search := a.search.dropLast } .search
  | .other => a

/-- The app state after the loop has consumed a list of inputs. -/
def loopState (fs : Fs) : List LoopIn → App → App
  | [], a => a
  | .fail :: _, a => a
  | .key k :: rest, a => loopState fs rest (stepKey fs a k)

/-- The query-edit discipline of the event layer: a trace is built from
blocks `pushQ c; updateApp search`, blocks `popQ; updateApp search` and
single effects that are neither query edits nor `Search` intents. -/
inductive QueryDiscipline : List Eff → Prop
  | nil : QueryDiscipline []
  | skip (e : Eff) (l : List Eff) :
      (∀ c, e ≠ .pushQ c) → e ≠ .popQ → e ≠ .updateApp .search →
      QueryDiscipline l → QueryDiscipline (e :: l)
  | push (c : Char) (l : List Eff) :
      QueryDiscipline l → QueryDiscipline (.pushQ c :: .updateApp .search :: l)
  | pop (l : List Eff) :
      QueryDiscipline l → QueryDiscipline (.popQ :: .updateApp .search :: l)

/-- Greedy earliest-match characterization of a highlight-position list:
each position is the first index at or after the previous cursor whose
candidate character matches the query character case-insensitively. -/
def IsGreedy (c : List Char) : Nat → List Char → List Nat → Prop
  | _, [], ps => ps = []
  | start, q :: qs, ps =>
    ∃ p tl, ps = p :: tl ∧ start ≤ p ∧ p < c.length ∧
      lowc (c.getD p 'a') = lowc q ∧
      (∀ j, start ≤ j → j < p → lowc (c.getD j 'a') ≠ lowc q) ∧
      IsGreedy c (p + 1) qs tl

/-! ## Concrete environments used as witnesses -/

/-- A filesystem whose root holds one directory `d`. -/
def fsOneDir : Fs := fun p => if p = [] then some [⟨['d'], true⟩] else some []

/-- An all-succeeding environment, starting at an unreadable root, that
presses `Esc`. -/
def envEsc : Env :=
  { enableRawFails := false
    enterAltFails := false
    mkTermFails := false
    disableRaw1Fails := false
    leaveAltFails := false
    disableRaw2Fails := false
    showCursorFails := false
    fs := fun _ => none
    cwd := []
    inputs := [.key .esc]
    os := .linux
    csShell := none }

/-- All-succeeding environment over `fsOneDir` that presses `Enter`. -/
def envEnter : Env := { envEsc with fs := fsOneDir, inputs := [.key .enter] }

/-- All-succeeding environment over an empty root directory that presses
`Enter` with nothing selected. -/
def envEnterEmpty : Env := { envEsc with fs := fun _ => some [], inputs := [.key .enter] }

/-- Environment in which entering the alternate screen fails. -/
def envAltFail : Env := { envEsc with enterAltFails := true }

/-- All-succeeding environment with `CS_SHELL` set, pressing `Esc`. -/
def envShellSet : Env := { envEsc with csShell := some "fish" }

/-! ## C6: the cursor clamp -/

/-- C6: for every prior cursor value and every new length,
`clamp old newLength` is "no selection" iff `newLength = 0`; otherwise it
is `newLength - 1` when `old ≥ newLength` and `old` when
`old < newLength`, so any returned value is `< newLength`. -/
theorem claim_C6 (old newLength : Nat) :
    (clamp old newLength = none ↔ newLength = 0) ∧
    (newLength ≠ 0 → newLength ≤ old → clamp old newLength = some (newLength - 1)) ∧
    (newLength ≠ 0 → old < newLength → clamp old newLength = some old) ∧
    (∀ r, clamp old newLength = some r → r < newLength) := by
  refine ⟨?_, ?_, ?_, ?_⟩
  · constructor
    · intro h
      by_contra h0
      unfold clamp at h
      rw [if_neg h0] at h
      split at h <;> simp_all
    · intro h
      simp [clamp, h]
  · intro h0 h1
    unfold clamp
    rw [if_neg h0, if_pos h1]
  · intro h0 h1
    unfold clamp
    rw [if_neg h0, if_neg (Nat.not_le.mpr h1)]
  · intro r hr
    unfold clamp at hr
    split at hr
    · simp at hr
    · split at hr <;> (simp at hr; omega)

/-- Witness for C6 at `old = 5`, `newLength = 3`. -/
theorem claim_C6_witness :
    clamp 5 3 = some 2 ∧ clamp 1 3 = some 1 ∧ (clamp 5 3 = none ↔ 3 = 0) :=
  ⟨(claim_C6 5 3).2.1 (by decide) (by decide),
   (claim_C6 1 3).2.2.1 (by decide) (by decide),
   (claim_C6 5 3).1⟩

/-! ## C10: the shell chosen after a successful loop -/

/-- C10: when the setup steps succeed, the loop returns `Ok` and the
restore steps succeed, `main` replaces the process with the command named
by `CS_SHELL` when set, else `bash` on Linux and `zsh` on macOS, and
panics with "Unsupported OS" on any other operating system. -/
theorem claim_C10 (env : Env)
    (h1 : env.enableRawFails = false) (h2 : env.enterAltFails = false)
    (h3 : env.mkTermFails = false) (h4 : env.disableRaw1Fails = false)
    (h5 : env.leaveAltFails = false) (h6 : env.disableRaw2Fails = false)
    (h7 : env.showCursorFails = false)
    (hok : (runApp env.fs env.inputs (App.new env.fs env.cwd)).2.2 = RunRes.okRes) :
    (env.os = OS.linux →
      ∃ pre, mainModel env = pre ++ [Eff.execShell (env.csShell.getD "bash")]) ∧
    (env.os = OS.macos →
      ∃ pre, mainModel env = pre ++ [Eff.execShell (env.csShell.getD "zsh")]) ∧
    (env.os = OS.otherOS →
      ∃ pre, mainModel env = pre ++ [Eff.panicOS]) := by
  refine ⟨?_, ?_, ?_⟩ <;> intro hos <;>
    refine ⟨Eff.enableRaw :: Eff.enterAlt :: Eff.mkTerm ::
      ((runApp env.fs env.inputs (App.new env.fs env.cwd)).1 ++
        [Eff.disableRaw, Eff.leaveAlt, Eff.disableRaw, Eff.showCursor]), ?_⟩ <;>
    simp [mainModel, mainAfter, h1, h2, h3, h4, h5, h6, h7, hok, hos, defaultShell]

/-- Witness for C10: with `CS_SHELL=fish` on Linux after an `Esc`-ended
loop, the final effect is `exec fish`. -/
theorem claim_C10_witness :
    ∃ pre, mainModel envShellSet = pre ++ [Eff.execShell ("fish")] :=
  (claim_C10 envShellSet rfl rfl rfl rfl rfl rfl rfl rfl).1 rfl

/-! ## C5: the fuzzy matcher -/

/-- A successful scan of the suffix `c.drop i` starting at absolute index
`i` yields exactly the greedy earliest positions. -/
lemma fuzzyFrom_greedy : ∀ (n : Nat) (q : List Char) (c : List Char) (i : Nat)
    (ps : List Nat), c.length ≤ i + n → fuzzyFrom q (c.drop i) i = some ps →
    IsGreedy c i q ps := by
  intro n
  induction n with
  | zero =>
    intro q c i ps hn h
    have hd : c.drop i = [] := List.drop_eq_nil_iff.mpr (by omega)
    rw [hd] at h
    cases q with
    | nil =>
      simp only [fuzzyFrom, Option.some.injEq] at h
      subst h
      rfl
    | cons x xs => simp [fuzzyFrom] at h
  | succ n ih =>
    intro q c i ps hn h
    cases q with
    | nil =>
      simp only [fuzzyFrom, Option.some.injEq] at h
      subst h
      rfl
    | cons x xs =>
      by_cases hlen : c.length ≤ i
      · rw [List.drop_eq_nil_iff.mpr hlen] at h
        simp [fuzzyFrom] at h
      · push_neg at hlen
        rw [List.drop_eq_getElem_cons hlen] at h
        rw [fuzzyFrom] at h
        split at h
        next heq =>
          rcases Option.map_eq_some'.mp h with ⟨tl, htl, hps⟩
          subst hps
          refine ⟨i, tl, rfl, Nat.le_refl i, hlen, ?_, ?_, ?_⟩
          · rw [List.getD_eq_getElem c 'a' hlen]
            exact heq.symm
          · intro j h1 h2
            omega
          · exact ih xs c (i + 1) tl (by omega) htl
        next hne =>
          obtain ⟨p, tl, hps, hip, hplen, hmatch, hmin, hrest⟩ :=
            ih (x :: xs) c (i + 1) ps (by omega) h
          refine ⟨p, tl, hps, by omega, hplen, hmatch, ?_, hrest⟩
          intro j hj1 hj2
          rcases Nat.eq_or_lt_of_le hj1 with hji | hj
          · subst hji
            rw [List.getD_eq_getElem c 'a' hlen]
            intro hc
            exact hne hc.symm
          · exact hmin j hj hj2

/-- Greedy positions are strictly increasing, in bounds and read the
query back case-insensitively. -/
lemma isGreedy_props : ∀ (q : List Char) (c : List Char) (start : Nat)
    (ps : List Nat), IsGreedy c start q ps →
    List.Chain' (· < ·) ps ∧ (∀ p ∈ ps, start ≤ p ∧ p < c.length) ∧
    ps.map (fun p => lowc (c.getD p 'a')) = q.map lowc := by
  intro q
  induction q with
  | nil =>
    intro c start ps h
    have h' : ps = [] := h
    subst h'
    exact ⟨List.chain'_nil, by simp, by simp⟩
  | cons x xs ih =>
    intro c start ps h
    obtain ⟨p, tl, hps, hsp, hplen, hmatch, _, hrest⟩ := h
    subst hps
    obtain ⟨hchain, hbd, hread⟩ := ih c (p + 1) tl hrest
    refine ⟨?_, ?_, ?_⟩
    · refine List.chain'_cons'.mpr ⟨?_, hchain⟩
      intro y hy
      have := hbd y (List.mem_of_mem_head? hy)
      omega
    · intro e he
      rcases List.mem_cons.mp he with he | he
      · omega
      · have := hbd e he
        exact ⟨by omega, this.2⟩
    · simp only [List.map_cons, hread, hmatch]

/-- Mapping a function over an option preserves `isSome`. -/
lemma optIsSome_map {α β : Type} (f : α → β) (o : Option α) :
    (o.map f).isSome = o.isSome := by
  cases o <;> rfl

/-- The scan succeeds exactly when the lowered query is a subsequence of
the lowered candidate. -/
lemma fuzzyFrom_isSome_iff : ∀ (cs q : List Char) (i : Nat),
    (fuzzyFrom q cs i).isSome ↔ (q.map lowc).Sublist (cs.map lowc) := by
  intro cs
  induction cs with
  | nil =>
    intro q i
    cases q with
    | nil => simp [fuzzyFrom]
    | cons x xs => simp [fuzzyFrom]
  | cons y ys ih =>
    intro q i
    cases q with
    | nil => simp [fuzzyFrom, List.nil_sublist]
    | cons x xs =>
      rw [fuzzyFrom]
      by_cases heq : lowc x = lowc y
      · rw [if_pos heq]
        simp only [List.map_cons, heq]
        rw [optIsSome_map, ih xs (i + 1)]
        exact (List.cons_sublist_cons).symm
      · rw [if_neg heq]
        rw [ih (x :: xs) (i + 1)]
        simp only [List.map_cons]
        constructor
        · exact fun h => h.cons _
        · intro h
          rcases List.sublist_cons_iff.mp h with h' | ⟨r, hr, _⟩
          · exact h'
          · exact absurd (List.cons.injEq .. ▸ hr).1 heq

/-- C5: whenever `match(q, c)` succeeds, the returned highlight positions
are strictly increasing, each below the character length of `c`, reading
`c` at those positions case-insensitively reproduces `q` in order, and
the positions are the greedy earliest ones; the match fails exactly when
the (case-folded) query is not a subsequence of the candidate, i.e. when
the candidate is exhausted before the query is consumed. -/
theorem claim_C5 (q c : List Char) :
    (∀ ps, fuzzyMatch q c = some ps →
      List.Chain' (· < ·) ps ∧
      (∀ p ∈ ps, p < c.length) ∧
      ps.map (fun p => lowc (c.getD p 'a')) = q.map lowc ∧
      IsGreedy c 0 q ps) ∧
    (fuzzyMatch q c = none ↔ ¬ (q.map lowc).Sublist (c.map lowc)) := by
  constructor
  · intro ps h
    have hg : IsGreedy c 0 q ps := by
      refine fuzzyFrom_greedy c.length q c 0 ps (by omega) ?_
      rw [List.drop_zero]
      exact h
    obtain ⟨hchain, hbd, hread⟩ := isGreedy_props q c 0 ps hg
    exact ⟨hchain, fun p hp => (hbd p hp).2, hread, hg⟩
  · unfold fuzzyMatch
    rw [← Option.not_isSome_iff_eq_none, fuzzyFrom_isSome_iff c q 0]

/-- Witness for C5: the spec's scenario, query `"an"` against `"Banana"`,
matched at positions `[1, 2]`. -/
theorem claim_C5_witness :
    List.Chain' (· < ·) [1, 2] ∧
    (∀ p ∈ [1, 2], p < ("Banana".toList).length) ∧
    ([1, 2].map (fun p => lowc ("Banana".toList.getD p 'a'))
      = ("an".toList).map lowc) ∧
    IsGreedy "Banana".toList 0 "an".toList [1, 2] :=
  (claim_C5 "an".toList "Banana".toList).1 [1, 2] (by decide)

/-! ## C8: the span construction of `ui_list` -/

/-- An in-range Rust slice does not panic. -/
lemma sliceOpt_eq (chars : List Char) (a b : Nat) (h1 : a ≤ b)
    (h2 : b ≤ chars.length) :
    sliceOpt chars a b = some ((chars.drop a).take (b - a)) := by
  unfold sliceOpt
  rw [if_pos ⟨h1, h2⟩]

/-- Dropping to an in-range index exposes that character. -/
lemma drop_getD_cons (chars : List Char) (i : Nat) (h : i < chars.length) :
    chars.drop i = chars.getD i 'a' :: chars.drop (i + 1) := by
  rw [List.drop_eq_getElem_cons h, List.getD_eq_getElem chars 'a' h]

/-- The highlight loop of `ui_list`, run from cursor `lastIndex` over
sorted in-range highlights, succeeds and partitions `chars.drop
lastIndex`, its styled spans being exactly the highlighted single
characters. -/
lemma spansLoop_spec (chars : List Char) : ∀ (hls : List Nat) (lastIndex : Nat),
    List.Pairwise (· < ·) hls →
    (∀ i ∈ hls, lastIndex ≤ i ∧ i < chars.length) →
    lastIndex ≤ chars.length →
    ∃ spans, spansLoop chars hls lastIndex = some spans ∧
      (spans.map SpanM.content).flatten = chars.drop lastIndex ∧
      (spans.filter (fun s => s.styled)).map SpanM.content
        = hls.map (fun i => [chars.getD i 'a']) := by
  intro hls
  induction hls with
  | nil =>
    intro last _ _ hlast
    by_cases h : last < chars.length
    · refine ⟨[⟨false, chars.drop last⟩], ?_, by simp, by simp⟩
      unfold spansLoop
      rw [if_pos h, sliceOpt_eq chars last chars.length (Nat.le_of_lt h) (Nat.le_refl _)]
      simp [List.take_of_length_le, List.length_drop]
    · have hlen : last = chars.length := by omega
      refine ⟨[], ?_, ?_, by simp⟩
      · unfold spansLoop
        rw [if_neg h]
      · simp [hlen, List.drop_length]
  | cons i rest ih =>
    intro last hpw hbd hlast
    have hi : last ≤ i ∧ i < chars.length := hbd i (List.mem_cons_self i rest)
    have hblk := List.pairwise_cons.mp hpw
    have hbd' : ∀ j ∈ rest, i + 1 ≤ j ∧ j < chars.length := fun j hj =>
      ⟨hblk.1 j hj, (hbd j (List.mem_cons_of_mem i hj)).2⟩
    obtain ⟨spans', hsl, hjoin, hfil⟩ := ih (i + 1) hblk.2 hbd' (by omega)
    have hst : sliceOpt chars i (i + 1) = some [chars.getD i 'a'] := by
      rw [sliceOpt_eq chars i (i + 1) (by omega) (by omega)]
      rw [drop_getD_cons chars i hi.2]
      simp
    have hcons : chars.drop i = chars.getD i 'a' :: chars.drop (i + 1) :=
      drop_getD_cons chars i hi.2
    by_cases hgt : i > last
    · have hraw : sliceOpt chars last i = some ((chars.drop last).take (i - last)) :=
        sliceOpt_eq chars last i (by omega) (by omega)
      refine ⟨⟨false, (chars.drop last).take (i - last)⟩ ::
        ⟨true, [chars.getD i 'a']⟩ :: spans', ?_, ?_, ?_⟩
      · unfold spansLoop
        rw [if_pos hgt]
        simp [hraw, hst, hsl]
      · have h2 : (chars.drop last).drop (i - last) = chars.drop i := by
          rw [List.drop_drop]
          congr 1
          omega
        have h3 := List.take_append_drop (i - last) (chars.drop last)
        simp only [List.map_cons, List.flatten_cons, hjoin]
        conv_rhs => rw [← h3, h2, hcons]
        simp
      · simp only [List.filter, List.map_cons]
        rw [hfil]
    · have hieq : i = last := by omega
      refine ⟨⟨true, [chars.getD i 'a']⟩ :: spans', ?_, ?_, ?_⟩
      · unfold spansLoop
        rw [if_neg hgt]
        simp [hst, hsl]
      · simp only [List.map_cons, List.flatten_cons, hjoin]
        rw [← hieq, hcons]
        simp
      · simp only [List.filter, List.map_cons]
        rw [hfil]

/-- C8: for a name with strictly increasing, in-range highlight
positions, the `ui_list` span construction is panic-free, the produced
spans concatenate back to the name character for character, and the
styled spans are exactly the single characters at the highlight
positions. -/
theorem claim_C8 (name : List Char) (hls : List Nat)
    (hinc : List.Chain' (· < ·) hls) (hbd : ∀ i ∈ hls, i < name.length) :
    ∃ spans, buildSpans name hls = some spans ∧
      (spans.map SpanM.content).flatten = name ∧
      (spans.filter (fun s => s.styled)).map SpanM.content
        = hls.map (fun i => [name.getD i 'a']) := by
  unfold buildSpans
  by_cases h : hls.isEmpty
  · have hnil : hls = [] := List.isEmpty_iff.mp h
    subst hnil
    exact ⟨[⟨false, name⟩], by simp, by simp, by simp⟩
  · rw [if_neg h]
    have hpw := List.chain'_iff_pairwise.mp hinc
    simpa using spansLoop_spec name hls 0 hpw
      (fun i hi => ⟨Nat.zero_le i, hbd i hi⟩) (Nat.zero_le _)

/-- Witness for C8 on `"Banana"` with highlights `[1, 2]`. -/
theorem claim_C8_witness :
    ∃ spans, buildSpans "Banana".toList [1, 2] = some spans ∧
      (spans.map SpanM.content).flatten = "Banana".toList ∧
      (spans.filter (fun s => s.styled)).map SpanM.content
        = [1, 2].map (fun i => ["Banana".toList.getD i 'a']) :=
  claim_C8 "Banana".toList [1, 2]
    (by simp [List.chain'_cons, List.chain'_singleton]) (by decide)

/-! ## C7: the event layer's query-edit discipline -/

/-- The `run_app` loop only ever touches the query as a push or pop
immediately followed by a `Search` intent. -/
lemma runApp_discipline (fs : Fs) : ∀ (ins : List LoopIn) (a : App),
    QueryDiscipline (runApp fs ins a).1 := by
  intro ins
  induction ins with
  | nil => intro a; exact .nil
  | cons i rest ih =>
    intro a
    cases i with
    | fail =>
      exact .skip _ _ (by intro c; simp) (by simp) (by simp) .nil
    | key k =>
      cases k with
      | esc =>
        exact .skip _ _ (by intro c; simp) (by simp) (by simp)
          (.skip _ _ (by intro c; simp) (by simp) (by simp) .nil)
      | left =>
        exact .skip _ _ (by intro c; simp) (by simp) (by simp)
          (.skip _ _ (by intro c; simp) (by simp) (by simp)
            (.skip _ _ (by intro c; simp) (by simp) (by simp) (ih _)))
      | down =>
        exact .skip _ _ (by intro c; simp) (by simp) (by simp)
          (.skip _ _ (by intro c; simp) (by simp) (by simp)
            (.skip _ _ (by intro c; simp) (by simp) (by simp) (ih _)))
      | up =>
        exact .skip _ _ (by intro c; simp) (by simp) (by simp)
          (.skip _ _ (by intro c; simp) (by simp) (by simp)
            (.skip _ _ (by intro c; simp) (by simp) (by simp) (ih _)))
      | right =>
        exact .skip _ _ (by intro c; simp) (by simp) (by simp)
          (.skip _ _ (by intro c; simp) (by simp) (by simp)
            (.skip _ _ (by intro c; simp) (by simp) (by simp) (ih _)))
      | enter =>
        exact .skip _ _ (by intro c; simp) (by simp) (by simp)
          (.skip _ _ (by intro c; simp) (by simp) (by simp)
            (.skip _ _ (by intro c; simp) (by simp) (by simp)
              (.skip _ _ (by intro c; simp) (by simp) (by simp) .nil)))
      | char c =>
        exact .skip _ _ (by intro c; simp) (by simp) (by simp)
          (.skip _ _ (by intro c; simp) (by simp) (by simp)
            (.push c _ (ih _)))
      | backspace =>
        exact .skip _ _ (by intro c; simp) (by simp) (by simp)
          (.skip _ _ (by intro c; simp) (by simp) (by simp)
            (.pop _ (ih _)))
      | other =>
        exact .skip _ _ (by intro c; simp) (by simp) (by simp)
          (.skip _ _ (by intro c; simp) (by simp) (by simp) (ih _))

/-- In a disciplined trace, every `Search` intent sits right after a
query mutation. -/
lemma qd_search_preceded {l : List Eff} (h : QueryDiscipline l) :
    ∀ n, l.get? n = some (.updateApp .search) →
      1 ≤ n ∧ (l.get? (n - 1) = some .popQ ∨
        ∃ c, l.get? (n - 1) = some (.pushQ c)) := by
  induction h with
  | nil => intro n hn; simp at hn
  | skip e l h1 h2 h3 hqd ih =>
    intro n hn
    match n with
    | 0 =>
      simp at hn
      exact absurd hn h3
    | 1 =>
      have h4 := ih 0 (by simpa using hn)
      exact absurd h4.1 (by omega)
    | (m + 2) =>
      have h4 := ih (m + 1) (by simpa using hn)
      refine ⟨by omega, ?_⟩
      simpa using h4.2
  | push c l hqd ih =>
    intro n hn
    match n with
    | 0 => simp at hn
    | 1 => exact ⟨by omega, Or.inr ⟨c, by simp⟩⟩
    | (m + 2) =>
      have h4 := ih m (by simpa using hn)
      refine ⟨by omega, ?_⟩
      obtain ⟨k, hk⟩ := Nat.exists_eq_succ_of_ne_zero (by omega : m ≠ 0)
      subst hk
      simpa using h4.2
  | pop l hqd ih =>
    intro n hn
    match n with
    | 0 => simp at hn
    | 1 => exact ⟨by omega, Or.inl (by simp)⟩
    | (m + 2) =>
      have h4 := ih m (by simpa using hn)
      refine ⟨by omega, ?_⟩
      obtain ⟨k, hk⟩ := Nat.exists_eq_succ_of_ne_zero (by omega : m ≠ 0)
      subst hk
      simpa using h4.2

/-- In a disciplined trace, every query mutation is followed by the
`Search` intent. -/
lemma qd_mut_followed {l : List Eff} (h : QueryDiscipline l) :
    ∀ n, (l.get? n = some .popQ ∨ ∃ c, l.get? n = some (.pushQ c)) →
      l.get? (n + 1) = some (.updateApp .search) := by
  induction h with
  | nil =>
    intro n hn
    rcases hn with h | ⟨c, h⟩ <;> simp at h
  | skip e l h1 h2 h3 hqd ih =>
    intro n hn
    match n with
    | 0 =>
      rcases hn with h | ⟨c, h⟩
      · simp at h
        exact absurd h h2
      · simp at h
        exact absurd h (h1 c)
    | (m + 1) =>
      have h4 : l.get? m = some Eff.popQ ∨ ∃ c, l.get? m = some (Eff.pushQ c) := by
        rcases hn with h | ⟨c, h⟩
        · exact Or.inl (by simpa using h)
        · exact Or.inr ⟨c, by simpa using h⟩
      simpa using ih m h4
  | push c l hqd ih =>
    intro n hn
    match n with
    | 0 => simp
    | 1 => rcases hn with h | ⟨c', h⟩ <;> simp at h
    | (m + 2) =>
      have h4 : l.get? m = some Eff.popQ ∨ ∃ c', l.get? m = some (Eff.pushQ c') := by
        rcases hn with h | ⟨c', h⟩
        · exact Or.inl (by simpa using h)
        · exact Or.inr ⟨c', by simpa using h⟩
      simpa using ih m h4
  | pop l hqd ih =>
    intro n hn
    match n with
    | 0 => simp
    | 1 => rcases hn with h | ⟨c', h⟩ <;> simp at h
    | (m + 2) =>
      have h4 : l.get? m = some Eff.popQ ∨ ∃ c', l.get? m = some (Eff.pushQ c') := by
        rcases hn with h | ⟨c', h⟩
        · exact Or.inl (by simpa using h)
        · exact Or.inr ⟨c', by simpa using h⟩
      simpa using ih m h4

/-- C7: in any `run_app` trace, the query is only ever edited by a push
of a typed character or a pop for Backspace, each such edit is
immediately followed by the `Search` intent, and every `Search` intent is
immediately preceded by exactly one such edit. -/
theorem claim_C7 (fs : Fs) (ins : List LoopIn) (a : App) :
    QueryDiscipline (runApp fs ins a).1 ∧
    (∀ n, (runApp fs ins a).1.get? n = some (.updateApp .search) →
      1 ≤ n ∧ ((runApp fs ins a).1.get? (n - 1) = some .popQ ∨
        ∃ c, (runApp fs ins a).1.get? (n - 1) = some (.pushQ c))) ∧
    (∀ n, ((runApp fs ins a).1.get? n = some .popQ ∨
        ∃ c, (runApp fs ins a).1.get? n = some (.pushQ c)) →
      (runApp fs ins a).1.get? (n + 1) = some (.updateApp .search)) :=
  ⟨runApp_discipline fs ins a,
   qd_search_preceded (runApp_discipline fs ins a),
   qd_mut_followed (runApp_discipline fs ins a)⟩

/-- Witness for C7: typing `a` pushes it and the next effect is the
`Search` intent. -/
theorem claim_C7_witness :
    QueryDiscipline (runApp (fun _ => none) [LoopIn.key (KeyCode.char 'a')]
      (App.new (fun _ => none) [])).1 ∧
    (runApp (fun _ => none) [LoopIn.key (KeyCode.char 'a')]
      (App.new (fun _ => none) [])).1.get? (2 + 1)
      = some (.updateApp .search) :=
  ⟨(claim_C7 (fun _ => none) [LoopIn.key (KeyCode.char 'a')]
      (App.new (fun _ => none) [])).1,
   (claim_C7 (fun _ => none) [LoopIn.key (KeyCode.char 'a')]
      (App.new (fun _ => none) [])).2.2 2 (Or.inr ⟨'a', by rfl⟩)⟩

/-! ## Trace helper lemmas for the `main` claims -/

/-- Every effect the loop of `run_app` emits is a loop effect. -/
lemma runApp_loopEffs (fs : Fs) : ∀ (ins : List LoopIn) (a : App),
    ∀ e ∈ (runApp fs ins a).1, isLoopEff e = true := by
  intro ins
  induction ins with
  | nil =>
    intro a e he
    simp [runApp] at he
  | cons i rest ih =>
    intro a e he
    cases i with
    | fail =>
      simp [runApp] at he
      subst he
      rfl
    | key k =>
      cases k with
      | esc =>
        simp [runApp] at he
        rcases he with rfl | rfl <;> rfl
      | left =>
        simp [runApp] at he
        rcases he with rfl | rfl | rfl | h
        · rfl
        · rfl
        · rfl
        · exact ih _ e h
      | down =>
        simp [runApp] at he
        rcases he with rfl | rfl | rfl | h
        · rfl
        · rfl
        · rfl
        · exact ih _ e h
      | up =>
        simp [runApp] at he
        rcases he with rfl | rfl | rfl | h
        · rfl
        · rfl
        · rfl
        · exact ih _ e h
      | right =>
        simp [runApp] at he
        rcases he with rfl | rfl | rfl | h
        · rfl
        · rfl
        · rfl
        · exact ih _ e h
      | enter =>
        simp [runApp] at he
        rcases he with rfl | rfl | rfl | rfl <;> rfl
      | char c =>
        simp [runApp] at he
        rcases he with rfl | rfl | rfl | rfl | h
        · rfl
        · rfl
        · rfl
        · rfl
        · exact ih _ e h
      | backspace =>
        simp [runApp] at he
        rcases he with rfl | rfl | rfl | rfl | h
        · rfl
        · rfl
        · rfl
        · rfl
        · exact ih _ e h
      | other =>
        simp [runApp] at he
        rcases he with rfl | rfl | h
        · rfl
        · rfl
        · exact ih _ e h

/-- A non-loop effect never occurs in a `run_app` trace. -/
lemma not_mem_runApp {e : Eff} (h : isLoopEff e = false) (fs : Fs)
    (ins : List LoopIn) (a : App) : e ∉ (runApp fs ins a).1 := by
  intro hm
  rw [runApp_loopEffs fs ins a e hm] at h
  cases h

/-- The loop on an `Enter` key: forward `Right`, change the working
directory to the updated state's current directory, break. -/
lemma runApp_enter (fs : Fs) (rest : List LoopIn) (a : App) :
    runApp fs (.key .enter :: rest) a
      = ([.draw, .pollKey .enter, .updateApp .right,
          .setCwd (update fs a .right).getCurrentDir],
         update fs a .right, .okRes) := rfl

/-- The loop on an `Esc` key: return `Ok` at once. -/
lemma runApp_esc (fs : Fs) (rest : List LoopIn) (a : App) :
    runApp fs (.key .esc :: rest) a = ([.draw, .pollKey .esc], a, .okRes) := rfl

/-- A quiet input prefix is consumed without terminating: the trace
factors through `loopState` and contains no working-directory change. -/
lemma runApp_quiet_append (fs : Fs) : ∀ (ins₁ ins₂ : List LoopIn) (a : App),
    (∀ i ∈ ins₁, Quiet i) →
    ∃ tr₁, runApp fs (ins₁ ++ ins₂) a
        = (tr₁ ++ (runApp fs ins₂ (loopState fs ins₁ a)).1,
           (runApp fs ins₂ (loopState fs ins₁ a)).2)
      ∧ (∀ p, Eff.setCwd p ∉ tr₁) := by
  intro ins₁
  induction ins₁ with
  | nil =>
    intro ins₂ a _
    exact ⟨[], by simp [loopState], by simp⟩
  | cons i rest ih =>
    intro ins₂ a hq
    have hqi := hq i (List.mem_cons_self i rest)
    have hrest : ∀ j ∈ rest, Quiet j := fun j hj => hq j (List.mem_cons_of_mem i hj)
    cases i with
    | fail => exact absurd rfl hqi.1
    | key k =>
      cases k with
      | esc => exact absurd rfl hqi.2.1
      | enter => exact absurd rfl hqi.2.2
      | left =>
        obtain ⟨tr₁, heq, hmem⟩ := ih ins₂ (update fs a .left) hrest
        refine ⟨.draw :: .pollKey .left :: .updateApp .left :: tr₁, ?_, ?_⟩
        · have hstep : runApp fs (LoopIn.key .left :: (rest ++ ins₂)) a
              = (Eff.draw :: Eff.pollKey .left :: Eff.updateApp .left ::
                  (runApp fs (rest ++ ins₂) (update fs a .left)).1,
                 (runApp fs (rest ++ ins₂) (update fs a .left)).2) := rfl
          rw [List.cons_append, hstep, heq]
          simp [loopState, stepKey]
        · intro p
          simp [hmem p]
      | down =>
        obtain ⟨tr₁, heq, hmem⟩ := ih ins₂ (update fs a .down) hrest
        refine ⟨.draw :: .pollKey .down :: .updateApp .down :: tr₁, ?_, ?_⟩
        · have hstep : runApp fs (LoopIn.key .down :: (rest ++ ins₂)) a
              = (Eff.draw :: Eff.pollKey .down :: Eff.updateApp .down ::
                  (runApp fs (rest ++ ins₂) (update fs a .down)).1,
                 (runApp fs (rest ++ ins₂) (update fs a .down)).2) := rfl
          rw [List.cons_append, hstep, heq]
          simp [loopState, stepKey]
        · intro p
          simp [hmem p]
      | up =>
        obtain ⟨tr₁, heq, hmem⟩ := ih ins₂ (update fs a .up) hrest
        refine ⟨.draw :: .pollKey .up :: .updateApp .up :: tr₁, ?_, ?_⟩
        · have hstep : runApp fs (LoopIn.key .up :: (rest ++ ins₂)) a
              = (Eff.draw :: Eff.pollKey .up :: Eff.updateApp .up ::
                  (runApp fs (rest ++ ins₂) (update fs a .up)).1,
                 (runApp fs (rest ++ ins₂) (update fs a .up)).2) := rfl
          rw [List.cons_append, hstep, heq]
          simp [loopState, stepKey]
        · intro p
          simp [hmem p]
      | right =>
        obtain ⟨tr₁, heq, hmem⟩ := ih ins₂ (update fs a .right) hrest
        refine ⟨.draw :: .pollKey .right :: .updateApp .right :: tr₁, ?_, ?_⟩
        · have hstep : runApp fs (LoopIn.key .right :: (rest ++ ins₂)) a
              = (Eff.draw :: Eff.pollKey .right :: Eff.updateApp .right ::
                  (runApp fs (rest ++ ins₂) (update fs a .right)).1,
                 (runApp fs (rest ++ ins₂) (update fs a .right)).2) := rfl
          rw [List.cons_append, hstep, heq]
          simp [loopState, stepKey]
        · intro p
          simp [hmem p]
      | char c =>
        obtain ⟨tr₁, heq, hmem⟩ :=
          ih ins₂ (update fs { a with search := a.search ++ [c] } .search) hrest
        refine ⟨.draw :: .pollKey (.char c) :: .pushQ c :: .updateApp .search :: tr₁,
          ?_, ?_⟩
        · have hstep : runApp fs (LoopIn.key (.char c) :: (rest ++ ins₂)) a
              = (Eff.draw :: Eff.pollKey (.char c) :: Eff.pushQ c ::
                  Eff.updateApp .search ::
                  (runApp fs (rest ++ ins₂)
                    (update fs { a with search := a.search ++ [c] } .search)).1,
                 (runApp fs (rest ++ ins₂)
                    (update fs { a with search := a.search ++ [c] } .search)).2) := rfl
          rw [List.cons_append, hstep, heq]
          simp [loopState, stepKey]
        · intro p
          simp [hmem p]
      | backspace =>
        obtain ⟨tr₁, heq, hmem⟩ :=
          ih ins₂ (update fs { a with search := a.search.dropLast } .search) hrest
        refine ⟨.draw :: .pollKey .backspace :: .popQ :: .updateApp .search :: tr₁,
          ?_, ?_⟩
        · have hstep : runApp fs (LoopIn.key .backspace :: (rest ++ ins₂)) a
              = (Eff.draw :: Eff.pollKey .backspace :: Eff.popQ ::
                  Eff.updateApp .search ::
                  (runApp fs (rest ++ ins₂)
                    (update fs { a with search := a.search.dropLast } .search)).1,
                 (runApp fs (rest ++ ins₂)
                    (update fs { a with search := a.search.dropLast } .search)).2) := rfl
          rw [List.cons_append, hstep, heq]
          simp [loopState, stepKey]
        · intro p
          simp [hmem p]
      | other =>
        obtain ⟨tr₁, heq, hmem⟩ := ih ins₂ a hrest
        refine ⟨.draw :: .pollKey .other :: tr₁, ?_, ?_⟩
        · have hstep : runApp fs (LoopIn.key .other :: (rest ++ ins₂)) a
              = (Eff.draw :: Eff.pollKey .other :: (runApp fs (rest ++ ins₂) a).1,
                 (runApp fs (rest ++ ins₂) a).2) := rfl
          rw [List.cons_append, hstep, heq]
          simp [loopState, stepKey]
        · intro p
          simp [hmem p]

/-- A `Right` intent with nothing selected, or with the selected entry
not a directory, leaves the state unchanged. -/
lemma update_right_noop (fs : Fs) (a : App)
    (h : a.selected = none ∨ ∃ ve, a.selected = some ve ∧
      ∀ e, a.listing.get? ve.source_index = some e → e.is_dir = false) :
    update fs a .right = a := by
  unfold update
  rcases h with h | ⟨ve, hve, hdir⟩
  · simp [h]
  · simp only [hve]
    cases hg : a.listing.get? ve.source_index with
    | none => rfl
    | some e => simp [hdir e hg]

/-- `mainAfter` never changes the working directory. -/
lemma mainAfter_no_setCwd (env : Env) (res : RunRes) (p : List String) :
    Eff.setCwd p ∉ mainAfter env res := by
  cases res with
  | pending => simp [mainAfter]
  | errRes =>
    unfold mainAfter
    split_ifs <;> simp
  | okRes =>
    unfold mainAfter
    cases env.os <;> split_ifs <;> simp [defaultShell]

/-- The restore-then-exec tail of `main` when every restore step succeeds
and the loop returned `Ok`. -/
lemma mainAfter_ok (env : Env) (d : String)
    (h4 : env.disableRaw1Fails = false) (h5 : env.leaveAltFails = false)
    (h6 : env.disableRaw2Fails = false) (h7 : env.showCursorFails = false)
    (hos : defaultShell env.os = some d) :
    mainAfter env .okRes =
      [.disableRaw, .leaveAlt, .disableRaw, .showCursor,
       .execShell (env.csShell.getD d)] := by
  simp [mainAfter, h4, h5, h6, h7, hos]

/-- The restore-then-report tail of `main` when every restore step
succeeds and the loop returned an error. -/
lemma mainAfter_err (env : Env)
    (h4 : env.disableRaw1Fails = false) (h5 : env.leaveAltFails = false)
    (h6 : env.disableRaw2Fails = false) (h7 : env.showCursorFails = false) :
    mainAfter env .errRes =
      [.disableRaw, .leaveAlt, .disableRaw, .showCursor, .printErr] := by
  simp [mainAfter, h4, h5, h6, h7]

/-- `main`'s trace once the three setup steps succeed. -/
lemma mainModel_eq (env : Env)
    (h1 : env.enableRawFails = false) (h2 : env.enterAltFails = false)
    (h3 : env.mkTermFails = false) :
    mainModel env = .enableRaw :: .enterAlt :: .mkTerm ::
      ((runApp env.fs env.inputs (App.new env.fs env.cwd)).1 ++
       mainAfter env (runApp env.fs env.inputs (App.new env.fs env.cwd)).2.2) := by
  simp [mainModel, h1, h2, h3]

/-! ## C1: Enter commits, changes directory, breaks and execs a shell -/

/-- C1: with a quiet prefix of inputs and then `Enter` (in particular
whenever a VisibleEntry is selected at that point), the loop forwards the
`Right` transition, changes the working directory to the resulting
state's `current_path`, terminates, and — after terminal restore — the
shell is exec'd with no further directory change in between. -/
theorem claim_C1 (env : Env) (ins₁ rest : List LoopIn) (d : String)
    (h1 : env.enableRawFails = false) (h2 : env.enterAltFails = false)
    (h3 : env.mkTermFails = false) (h4 : env.disableRaw1Fails = false)
    (h5 : env.leaveAltFails = false) (h6 : env.disableRaw2Fails = false)
    (h7 : env.showCursorFails = false)
    (hin : env.inputs = ins₁ ++ .key .enter :: rest)
    (hquiet : ∀ i ∈ ins₁, Quiet i)
    (hsel : (loopState env.fs ins₁ (App.new env.fs env.cwd)).selected.isSome = true)
    (hos : defaultShell env.os = some d) :
    ∃ tr₁, (∀ p, Eff.setCwd p ∉ tr₁) ∧
      mainModel env =
        [Eff.enableRaw, Eff.enterAlt, Eff.mkTerm] ++ tr₁ ++
        [Eff.draw, Eff.pollKey .enter, Eff.updateApp .right,
         Eff.setCwd (update env.fs (loopState env.fs ins₁
           (App.new env.fs env.cwd)) .right).getCurrentDir,
         Eff.disableRaw, Eff.leaveAlt, Eff.disableRaw, Eff.showCursor,
         Eff.execShell (env.csShell.getD d)] := by
  obtain ⟨tr₁, heq, hmem⟩ :=
    runApp_quiet_append env.fs ins₁ (.key .enter :: rest) (App.new env.fs env.cwd)
      hquiet
  refine ⟨tr₁, hmem, ?_⟩
  rw [mainModel_eq env h1 h2 h3, hin, heq, runApp_enter]
  simp [mainAfter_ok env d h4 h5 h6 h7 hos]

/-- Witness for C1: one directory `d` at the root, selected at startup,
`Enter` pressed immediately. -/
theorem claim_C1_witness :
    ∃ tr₁, (∀ p, Eff.setCwd p ∉ tr₁) ∧
      mainModel envEnter =
        [Eff.enableRaw, Eff.enterAlt, Eff.mkTerm] ++ tr₁ ++
        [Eff.draw, Eff.pollKey .enter, Eff.updateApp .right,
         Eff.setCwd (update envEnter.fs (loopState envEnter.fs []
           (App.new envEnter.fs envEnter.cwd)) .right).getCurrentDir,
         Eff.disableRaw, Eff.leaveAlt, Eff.disableRaw, Eff.showCursor,
         Eff.execShell (envEnter.csShell.getD "bash")] :=
  claim_C1 envEnter [] [] "bash" rfl rfl rfl rfl rfl rfl rfl rfl
    (by simp) (by rfl) rfl

/-! ## C2: the Esc path -/

/-- Counterexample to C2 as stated: on a pure `Esc` run the working
directory is indeed never changed, but a shell IS launched — `run_app`
returns `Ok(())` and `main` proceeds to `exec`. -/
theorem claim_C2_counterexample :
    mainModel envEsc =
      [Eff.enableRaw, Eff.enterAlt, Eff.mkTerm, Eff.draw, Eff.pollKey .esc,
       Eff.disableRaw, Eff.leaveAlt, Eff.disableRaw, Eff.showCursor,
       Eff.execShell "bash"] ∧
    Eff.execShell "bash" ∈ mainModel envEsc := by
  have h : mainModel envEsc =
      [Eff.enableRaw, Eff.enterAlt, Eff.mkTerm, Eff.draw, Eff.pollKey .esc,
       Eff.disableRaw, Eff.leaveAlt, Eff.disableRaw, Eff.showCursor,
       Eff.execShell "bash"] := rfl
  exact ⟨h, by rw [h]; simp⟩

/-- C2 as amended: `Esc` terminates the loop with `Ok` and the working
directory is never changed on that path, but `main` still replaces the
process with a shell (launched in the unchanged directory) whenever the
terminal operations succeed. -/
theorem claim_C2_amended (env : Env) (ins₁ rest : List LoopIn)
    (hin : env.inputs = ins₁ ++ .key .esc :: rest)
    (hquiet : ∀ i ∈ ins₁, Quiet i) :
    (runApp env.fs env.inputs (App.new env.fs env.cwd)).2.2 = RunRes.okRes ∧
    (∀ p, Eff.setCwd p ∉ mainModel env) ∧
    (∀ d, env.enableRawFails = false → env.enterAltFails = false →
      env.mkTermFails = false → env.disableRaw1Fails = false →
      env.leaveAltFails = false → env.disableRaw2Fails = false →
      env.showCursorFails = false → defaultShell env.os = some d →
      Eff.execShell (env.csShell.getD d) ∈ mainModel env) := by
  obtain ⟨tr₁, heq, hmem⟩ :=
    runApp_quiet_append env.fs ins₁ (.key .esc :: rest) (App.new env.fs env.cwd)
      hquiet
  have hris : runApp env.fs env.inputs (App.new env.fs env.cwd)
      = (tr₁ ++ [.draw, .pollKey .esc],
         loopState env.fs ins₁ (App.new env.fs env.cwd), .okRes) := by
    rw [hin, heq, runApp_esc]
  refine ⟨by rw [hris], ?_, ?_⟩
  · intro p
    unfold mainModel
    split_ifs <;> simp_all [List.mem_append, hris, mainAfter_no_setCwd]
  · intro d hf1 hf2 hf3 hf4 hf5 hf6 hf7 hos
    rw [mainModel_eq env hf1 hf2 hf3, hris]
    simp [mainAfter_ok env d hf4 hf5 hf6 hf7 hos]

/-- Witness for the amended C2: the all-succeeding `Esc` environment. -/
theorem claim_C2_amended_witness :
    (runApp envEsc.fs envEsc.inputs (App.new envEsc.fs envEsc.cwd)).2.2
      = RunRes.okRes ∧
    (∀ p, Eff.setCwd p ∉ mainModel envEsc) ∧
    Eff.execShell (envEsc.csShell.getD "bash") ∈ mainModel envEsc := by
  obtain ⟨ha, hb, hc⟩ := claim_C2_amended envEsc [] [] rfl (by simp)
  exact ⟨ha, hb, hc "bash" rfl rfl rfl rfl rfl rfl rfl rfl⟩

/-! ## C9: Enter is unconditional -/

/-- C9: `Enter` terminates the loop even when the preceding `Right` is a
no-op (nothing selected, or the selected entry not a directory): the
state is unchanged, the working directory is set to the unchanged
`current_path`, and the shell is launched there. -/
theorem claim_C9 (env : Env) (ins₁ rest : List LoopIn) (d : String)
    (h1 : env.enableRawFails = false) (h2 : env.enterAltFails = false)
    (h3 : env.mkTermFails = false) (h4 : env.disableRaw1Fails = false)
    (h5 : env.leaveAltFails = false) (h6 : env.disableRaw2Fails = false)
    (h7 : env.showCursorFails = false)
    (hin : env.inputs = ins₁ ++ .key .enter :: rest)
    (hquiet : ∀ i ∈ ins₁, Quiet i)
    (hnoop : (loopState env.fs ins₁ (App.new env.fs env.cwd)).selected = none ∨
      ∃ ve, (loopState env.fs ins₁ (App.new env.fs env.cwd)).selected = some ve ∧
        ∀ e, (loopState env.fs ins₁ (App.new env.fs env.cwd)).listing.get?
          ve.source_index = some e → e.is_dir = false)
    (hos : defaultShell env.os = some d) :
    update env.fs (loopState env.fs ins₁ (App.new env.fs env.cwd)) .right
      = loopState env.fs ins₁ (App.new env.fs env.cwd) ∧
    ∃ tr₁, (∀ p, Eff.setCwd p ∉ tr₁) ∧
      mainModel env =
        [Eff.enableRaw, Eff.enterAlt, Eff.mkTerm] ++ tr₁ ++
        [Eff.draw, Eff.pollKey .enter, Eff.updateApp .right,
         Eff.setCwd (loopState env.fs ins₁
           (App.new env.fs env.cwd)).getCurrentDir,
         Eff.disableRaw, Eff.leaveAlt, Eff.disableRaw, Eff.showCursor,
         Eff.execShell (env.csShell.getD d)] := by
  have hno := update_right_noop env.fs
    (loopState env.fs ins₁ (App.new env.fs env.cwd)) hnoop
  obtain ⟨tr₁, heq, hmem⟩ :=
    runApp_quiet_append env.fs ins₁ (.key .enter :: rest) (App.new env.fs env.cwd)
      hquiet
  refine ⟨hno, tr₁, hmem, ?_⟩
  rw [mainModel_eq env h1 h2 h3, hin, heq, runApp_enter, hno]
  simp [mainAfter_ok env d h4 h5 h6 h7 hos]

/-- Witness for C9: an empty root listing, so nothing is selected, and
`Enter` pressed immediately; the directory set is the unchanged root. -/
theorem claim_C9_witness :
    update envEnterEmpty.fs (loopState envEnterEmpty.fs []
      (App.new envEnterEmpty.fs envEnterEmpty.cwd)) .right
      = loopState envEnterEmpty.fs [] (App.new envEnterEmpty.fs envEnterEmpty.cwd) ∧
    ∃ tr₁, (∀ p, Eff.setCwd p ∉ tr₁) ∧
      mainModel envEnterEmpty =
        [Eff.enableRaw, Eff.enterAlt, Eff.mkTerm] ++ tr₁ ++
        [Eff.draw, Eff.pollKey .enter, Eff.updateApp .right,
         Eff.setCwd (loopState envEnterEmpty.fs []
           (App.new envEnterEmpty.fs envEnterEmpty.cwd)).getCurrentDir,
         Eff.disableRaw, Eff.leaveAlt, Eff.disableRaw, Eff.showCursor,
         Eff.execShell (envEnterEmpty.csShell.getD "bash")] :=
  claim_C9 envEnterEmpty [] [] "bash" rfl rfl rfl rfl rfl rfl rfl rfl
    (by simp) (Or.inl rfl) rfl

/-! ## C3: terminal teardown on exit paths -/

/-- Counterexample to C3 as stated: when entering the alternate screen
fails, `main` returns through the `?` operator with raw mode still
enabled — no `disable_raw_mode` runs on that exit path. -/
theorem claim_C3_counterexample :
    mainModel envAltFail = [Eff.enableRaw] ∧
    Eff.enableRaw ∈ mainModel envAltFail ∧
    Eff.disableRaw ∉ mainModel envAltFail ∧
    finalRaw (mainModel envAltFail) = true := by
  have h : mainModel envAltFail = [Eff.enableRaw] := rfl
  refine ⟨h, ?_, ?_, ?_⟩
  · rw [h]
    simp
  · rw [h]
    simp
  · rw [h]
    rfl

/-- C3 as amended: on runs where the three setup steps and the four
restore steps all succeed, once the loop returns (`Ok` or `Err`) the
restore sequence runs before anything further, leaving raw mode disabled
and the alternate screen left at every program exit (error report, shell
exec, or the unsupported-OS panic). -/
theorem claim_C3_amended (env : Env)
    (h1 : env.enableRawFails = false) (h2 : env.enterAltFails = false)
    (h3 : env.mkTermFails = false) (h4 : env.disableRaw1Fails = false)
    (h5 : env.leaveAltFails = false) (h6 : env.disableRaw2Fails = false)
    (h7 : env.showCursorFails = false)
    (hterm : (runApp env.fs env.inputs (App.new env.fs env.cwd)).2.2
      ≠ RunRes.pending) :
    finalRaw (mainModel env) = false ∧ finalAlt (mainModel env) = false := by
  rw [mainModel_eq env h1 h2 h3]
  cases hres : (runApp env.fs env.inputs (App.new env.fs env.cwd)).2.2 with
  | pending => exact absurd hres hterm
  | errRes =>
    rw [mainAfter_err env h4 h5 h6 h7]
    constructor <;> simp [finalRaw, finalAlt, List.foldl_append]
  | okRes =>
    rcases hos : defaultShell env.os with _ | d
    · have hM : mainAfter env .okRes =
          [.disableRaw, .leaveAlt, .disableRaw, .showCursor, .panicOS] := by
        simp [mainAfter, h4, h5, h6, h7, hos]
      rw [hM]
      constructor <;> simp [finalRaw, finalAlt, List.foldl_append]
    · rw [mainAfter_ok env d h4 h5 h6 h7 hos]
      constructor <;> simp [finalRaw, finalAlt, List.foldl_append]

/-- Witness for the amended C3: the all-succeeding `Esc` run ends with
raw mode off and the alternate screen left. -/
theorem claim_C3_amended_witness :
    finalRaw (mainModel envEsc) = false ∧ finalAlt (mainModel envEsc) = false :=
  claim_C3_amended envEsc rfl rfl rfl rfl rfl rfl rfl (by decide)

/-! ## C4: teardown strictly precedes the exec -/

/-- Splitting a concatenation at an element absent from the left part
splits the right part. -/
lemma append_split_right {α : Type} : ∀ (A B tr₁ tr₂ : List α) (y : α),
    A ++ B = tr₁ ++ y :: tr₂ → y ∉ A →
    ∃ b₁ b₂, B = b₁ ++ y :: b₂ ∧ tr₁ = A ++ b₁ := by
  intro A
  induction A with
  | nil =>
    intro B tr₁ tr₂ y h _
    exact ⟨tr₁, tr₂, by simpa using h, by simp⟩
  | cons a A ih =>
    intro B tr₁ tr₂ y h hy
    cases tr₁ with
    | nil =>
      simp at h
      exact absurd (h.1 ▸ List.mem_cons_self a A) hy
    | cons t tr₁ =>
      simp only [List.cons_append, List.cons.injEq] at h
      obtain ⟨b₁, b₂, hB, hT⟩ :=
        ih B tr₁ tr₂ y h.2 (fun hm => hy (List.mem_cons_of_mem a hm))
      exact ⟨b₁, b₂, hB, by rw [h.1, hT]; rfl⟩

/-- C4: wherever an `exec` of the shell occurs in `main`'s trace, both a
`disable_raw_mode` and a `LeaveAlternateScreen` occur strictly before
it. -/
theorem claim_C4 (env : Env) (tr₁ tr₂ : List Eff) (cmd : String)
    (h : mainModel env = tr₁ ++ Eff.execShell cmd :: tr₂) :
    Eff.disableRaw ∈ tr₁ ∧ Eff.leaveAlt ∈ tr₁ := by
  have hmem : Eff.execShell cmd ∈ mainModel env := by
    rw [h]
    simp
  by_cases hb1 : env.enableRawFails = true
  · rw [show mainModel env = [] from by simp [mainModel, hb1]] at hmem
    simp at hmem
  by_cases hb2 : env.enterAltFails = true
  · have h1 : env.enableRawFails = false := by simp at hb1; exact hb1
    rw [show mainModel env = [Eff.enableRaw] from
      by simp [mainModel, h1, hb2]] at hmem
    simp at hmem
  by_cases hb3 : env.mkTermFails = true
  · have h1 : env.enableRawFails = false := by simp at hb1; exact hb1
    have h2 : env.enterAltFails = false := by simp at hb2; exact hb2
    rw [show mainModel env = [Eff.enableRaw, Eff.enterAlt] from
      by simp [mainModel, h1, h2, hb3]] at hmem
    simp at hmem
  have h1 : env.enableRawFails = false := by simp at hb1; exact hb1
  have h2 : env.enterAltFails = false := by simp at hb2; exact hb2
  have h3 : env.mkTermFails = false := by simp at hb3; exact hb3
  rw [mainModel_eq env h1 h2 h3] at hmem h
  have hM : Eff.execShell cmd ∈ mainAfter env
      (runApp env.fs env.inputs (App.new env.fs env.cwd)).2.2 := by
    simp only [List.mem_cons, List.mem_append] at hmem
    rcases hmem with h' | h' | h' | h' | h'
    · simp at h'
    · simp at h'
    · simp at h'
    · exact absurd h' (@not_mem_runApp (Eff.execShell cmd) rfl env.fs env.inputs _)
    · exact h'
  cases hres : (runApp env.fs env.inputs (App.new env.fs env.cwd)).2.2 with
  | pending =>
    rw [hres] at hM
    simp [mainAfter] at hM
  | errRes =>
    rw [hres] at hM
    unfold mainAfter at hM
    split_ifs at hM <;> simp at hM
  | okRes =>
    rw [hres] at hM h
    by_cases hb4 : env.disableRaw1Fails = true
    · simp [mainAfter, hb4] at hM
    by_cases hb5 : env.leaveAltFails = true
    · have h4 : env.disableRaw1Fails = false := by simp at hb4; exact hb4
      simp [mainAfter, h4, hb5] at hM
    by_cases hb6 : env.disableRaw2Fails = true
    · have h4 : env.disableRaw1Fails = false := by simp at hb4; exact hb4
      have h5 : env.leaveAltFails = false := by simp at hb5; exact hb5
      simp [mainAfter, h4, h5, hb6] at hM
    by_cases hb7 : env.showCursorFails = true
    · have h4 : env.disableRaw1Fails = false := by simp at hb4; exact hb4
      have h5 : env.leaveAltFails = false := by simp at hb5; exact hb5
      have h6 : env.disableRaw2Fails = false := by simp at hb6; exact hb6
      simp [mainAfter, h4, h5, h6, hb7] at hM
    have h4 : env.disableRaw1Fails = false := by simp at hb4; exact hb4
    have h5 : env.leaveAltFails = false := by simp at hb5; exact hb5
    have h6 : env.disableRaw2Fails = false := by simp at hb6; exact hb6
    have h7 : env.showCursorFails = false := by simp at hb7; exact hb7
    rcases hos : defaultShell env.os with _ | d
    · simp [mainAfter, h4, h5, h6, h7, hos] at hM
    · rw [mainAfter_ok env d h4 h5 h6 h7 hos] at h
      have hshape : (Eff.enableRaw :: Eff.enterAlt :: Eff.mkTerm ::
          ((runApp env.fs env.inputs (App.new env.fs env.cwd)).1 ++
           [Eff.disableRaw, Eff.leaveAlt, Eff.disableRaw, Eff.showCursor]))
          ++ [Eff.execShell (env.csShell.getD d)]
          = tr₁ ++ Eff.execShell cmd :: tr₂ := by
        rw [← h]
        simp
      have hnotin : Eff.execShell cmd ∉ Eff.enableRaw :: Eff.enterAlt :: Eff.mkTerm ::
          ((runApp env.fs env.inputs (App.new env.fs env.cwd)).1 ++
           [Eff.disableRaw, Eff.leaveAlt, Eff.disableRaw, Eff.showCursor]) := by
        simp only [List.mem_cons, List.mem_append]
        intro hin
        rcases hin with h' | h' | h' | h' | h'
        · simp at h'
        · simp at h'
        · simp at h'
        · exact absurd h' (@not_mem_runApp (Eff.execShell cmd) rfl env.fs env.inputs _)
        · simp at h'
      obtain ⟨b₁, b₂, _, hT⟩ :=
        append_split_right _ _ tr₁ tr₂ _ hshape hnotin
      rw [hT]
      constructor <;> simp

/-- Witness for C4: in the `Esc` run's trace, the exec of `bash` is
preceded by both restore effects. -/
theorem claim_C4_witness :
    Eff.disableRaw ∈ [Eff.enableRaw, Eff.enterAlt, Eff.mkTerm, Eff.draw,
      Eff.pollKey .esc, Eff.disableRaw, Eff.leaveAlt, Eff.disableRaw,
      Eff.showCursor] ∧
    Eff.leaveAlt ∈ [Eff.enableRaw, Eff.enterAlt, Eff.mkTerm, Eff.draw,
      Eff.pollKey .esc, Eff.disableRaw, Eff.leaveAlt, Eff.disableRaw,
      Eff.showCursor] :=
  claim_C4 envEsc [Eff.enableRaw, Eff.enterAlt, Eff.mkTerm, Eff.draw,
    Eff.pollKey .esc, Eff.disableRaw, Eff.leaveAlt, Eff.disableRaw,
    Eff.showCursor] [] "bash" (by rfl)

end CS
